import Mathlib

/-!
A verification development for the drawille-rs terminal graphics library
(src/lib.rs): the braille Canvas (sparse cell map keyed by truncated cell
coordinates, pixel set/unset/toggle/get, row serialization, line and ellipse
rasterization) and the Turtle cursor. Rust machine integers are modelled as
Nat/Int with explicit reductions modulo 2^16 / 2^32 wherever the u16/u32/i32
casts and arithmetic of the source can truncate or wrap.
-/

namespace Drawille

def U32 : Nat := 4294967296

def U16 : Nat := 65536

/-- Reduce an integer into [-2^31, 2^31), modelling the value of Rust i32
wrapping arithmetic and `as i32` casts. -/
def wrap32 (z : Int) : Int := (z + 2147483648) % 4294967296 - 2147483648

/-- Rust `n as i32` on an unsigned value. -/
def toI32 (n : Nat) : Int := wrap32 n

/-- Rust i32 wrapping addition. -/
def wadd (a b : Int) : Int := wrap32 (a + b)

/-- Rust i32 wrapping subtraction. -/
def wsub (a b : Int) : Int := wrap32 (a - b)

/-- Rust i32 wrapping multiplication. -/
def wmul (a b : Int) : Int := wrap32 (a * b)

/-- Rust i32 wrapping negation. -/
def wneg (a : Int) : Int := wrap32 (-a)

/-- Rust `z as u32` on an i32 value. -/
def toU32 (z : Int) : Nat := (z % 4294967296).toNat

/-- Model of the external colored crate color enum (`colored::Color`,
re-exported by lib.rs as `PixelColor`); the canvas passes it through
opaquely, so only the constructors matter here. -/
inductive PixelColor where
  | white
  | black
  | red
  | green
  | yellow
  | blue
  | magenta
  | cyan
  | trueColor (r g b : Nat)
deriving DecidableEq, Repr

/-- One braille cell: the `(u8, char, bool, PixelColor)` tuple stored per
cell coordinate in `Canvas::chars` (dot bitmask, override character,
colored flag, color tag). -/
structure Cell where
  bits : Nat
  ch : Char
  colored : Bool
  color : PixelColor
deriving DecidableEq, Repr

/-- The default cell inserted by `or_insert((0, ' ', false, PixelColor::White))`. -/
def defaultCell : Cell := ⟨0, ' ', false, PixelColor.white⟩

/-- The finite map `FnvHashMap<(u16, u16), Cell>`, modelled as an association
list with at most one binding per key (iteration order is irrelevant to the
source: it is only ever folded through `max`). -/
abbrev CharMap := List ((Nat × Nat) × Cell)

/-- `HashMap::get`. -/
def lookupCell : CharMap → (Nat × Nat) → Option Cell
  | [], _ => none
  | (k, v) :: rest, key => if k = key then some v else lookupCell rest key

/-- `HashMap::entry(key).or_insert(default)` followed by an in-place mutation
of the entry by `f`. -/
def updateCell (m : CharMap) (key : Nat × Nat) (f : Cell → Cell) : CharMap :=
  match m with
  | [] => [(key, f defaultCell)]
  | (k, v) :: rest =>
    if k = key then (k, f v) :: rest else (k, v) :: updateCell rest key f

/-- `PIXEL_MAP[ymod][xmod]` from lib.rs, with
`PIXEL_MAP = [[0x01, 0x08], [0x02, 0x10], [0x04, 0x20], [0x40, 0x80]]`. -/
def pixelMap (ymod xmod : Nat) : Nat :=
  match ymod, xmod with
  | 0, 0 => 0x01
  | 0, _ => 0x08
  | 1, 0 => 0x02
  | 1, _ => 0x10
  | 2, 0 => 0x04
  | 2, _ => 0x20
  | _, 0 => 0x40
  | _, _ => 0x80

/-- The cell key `((x / 2) as u16, (y / 4) as u16)` computed by every pixel
operation; the `as u16` cast truncates modulo 2^16. -/
def cellKey (x y : Nat) : Nat × Nat := (x / 2 % U16, y / 4 % U16)

/-- The dot bit `PIXEL_MAP[y as usize % 4][x as usize % 2]`. -/
def dotBit (x y : Nat) : Nat := pixelMap (y % 4) (x % 2)

/-- The `Canvas` struct: sparse cell map plus the minimum extents in cell
units (`width`, `height` are u16 fields). -/
structure Canvas where
  chars : CharMap
  width : Nat
  height : Nat
deriving DecidableEq, Repr

/-- `Canvas::new(width, height)`: pixel dimensions are divided by 2 and 4 and
then cast `as u16` (truncation modulo 2^16). -/
def Canvas.new (width height : Nat) : Canvas :=
  ⟨[], width / 2 % U16, height / 4 % U16⟩

/-- `Canvas::set(x, y)`. -/
def Canvas.set (c : Canvas) (x y : Nat) : Canvas :=
  { c with
    chars := updateCell c.chars (cellKey x y) fun a =>
      ⟨a.bits ||| dotBit x y, ' ', false, PixelColor.white⟩ }

/-- `Canvas::set_colored(x, y, color)`. -/
def Canvas.set_colored (c : Canvas) (x y : Nat) (color : PixelColor) : Canvas :=
  { c with
    chars := updateCell c.chars (cellKey x y) fun a =>
      ⟨a.bits ||| dotBit x y, ' ', true, color⟩ }

/-- `Canvas::unset(x, y)`: `a.0 &= !PIXEL_MAP[y % 4][x % 2]` on a u8. -/
def Canvas.unset (c : Canvas) (x y : Nat) : Canvas :=
  { c with
    chars := updateCell c.chars (cellKey x y) fun a =>
      { a with bits := a.bits &&& (255 ^^^ dotBit x y) } }

/-- `Canvas::toggle(x, y)`: `a.0 ^= PIXEL_MAP[y % 4][x % 2]`. -/
def Canvas.toggle (c : Canvas) (x y : Nat) : Canvas :=
  { c with
    chars := updateCell c.chars (cellKey x y) fun a =>
      { a with bits := a.bits ^^^ dotBit x y } }

/-- `Canvas::get(x, y)`. -/
def Canvas.get (c : Canvas) (x y : Nat) : Bool :=
  match lookupCell c.chars (cellKey x y) with
  | none => false
  | some a => a.bits &&& dotBit x y != 0

/-- The running maximum taken over the keys of the cell map in
`Canvas::rows` (`maxrow`/`maxcol` start from the width/height fields). -/
def keyFold (g : Nat × Nat → Nat) (m : CharMap) (init : Nat) : Nat :=
  m.foldl (fun acc kv => max acc (g kv.1)) init

/-- Model of the external colored crate: the numeric part of the ANSI SGR
foreground sequence for a color. Only used opaquely by the canvas. -/
def colorCode : PixelColor → List Char
  | PixelColor.white => ['3', '7']
  | PixelColor.black => ['3', '0']
  | PixelColor.red => ['3', '1']
  | PixelColor.green => ['3', '2']
  | PixelColor.yellow => ['3', '3']
  | PixelColor.blue => ['3', '4']
  | PixelColor.magenta => ['3', '5']
  | PixelColor.cyan => ['3', '6']
  | PixelColor.trueColor r g b =>
    ['3', '8', ';', '2', ';'] ++ Nat.toDigits 10 r ++ [';'] ++ Nat.toDigits 10 g
      ++ [';'] ++ Nat.toDigits 10 b

/-- Model of the external colored crate's `Colorize::color`: wraps a glyph in
an ANSI SGR escape and a reset. -/
def colorWrap (col : PixelColor) (s : List Char) : List Char :=
  [Char.ofNat 27, '['] ++ colorCode col ++ ['m'] ++ s ++ [Char.ofNat 27, '[', '0', 'm']

/-- How one cell is rendered by the match in `Canvas::rows`: a zero bitmask
renders the override character, an uncolored bitmask renders the braille
character `0x2800 + bits`, a colored bitmask is wrapped in escapes. -/
def renderCell (cell : Cell) : List Char :=
  if cell.bits = 0 then [cell.ch]
  else if cell.colored = false then [Char.ofNat (0x2800 + cell.bits)]
  else colorWrap cell.color [Char.ofNat (0x2800 + cell.bits)]

/-- `Canvas::rows()`: one rendered text row (as a list of characters) per
cell row `0..=maxcol`, each spanning cell columns `0..=maxrow`. -/
def Canvas.rows (c : Canvas) : List (List Char) :=
  let maxrow := keyFold Prod.fst c.chars c.width
  let maxcol := keyFold Prod.snd c.chars c.height
  (List.range (maxcol + 1)).map fun y =>
    (List.range (maxrow + 1)).flatMap fun x =>
      renderCell ((lookupCell c.chars (x, y)).getD defaultCell)

/-- `Canvas::frame()`: the rows joined by newlines. -/
def Canvas.frame (c : Canvas) : List Char :=
  List.intercalate [Char.ofNat 10] c.rows

/-- `cmp::max(a, b) - cmp::min(a, b)` on u32, as used for `xdiff`/`ydiff`. -/
def natDiff (a b : Nat) : Nat := max a b - min a b

/-- The minor-axis offset `(i * diff) / r` of `Canvas::line`; the u32 product
`i * diff` wraps modulo 2^32. A zero `diff` contributes no offset (the
source guards the division with `if diff != 0`). -/
def lineOff (diff r i : Nat) : Nat :=
  if diff = 0 then 0 else i * diff % U32 / r

/-- The point emitted by iteration `i` of the loop in `Canvas::line`:
`x1 as i32` plus the direction-signed offset, cast back `as u32`. -/
def linePoint (x1 y1 x2 y2 i : Nat) : Nat × Nat :=
  let xdiff := natDiff x1 x2
  let ydiff := natDiff y1 y2
  let r := max xdiff ydiff
  let xdir : Int := if x1 ≤ x2 then 1 else -1
  let ydir : Int := if y1 ≤ y2 then 1 else -1
  (toU32 ((x1 : Int) + xdir * lineOff xdiff r i),
   toU32 ((y1 : Int) + ydir * lineOff ydiff r i))

/-- All points emitted by `Canvas::line(x1, y1, x2, y2)`, in loop order
(`for i in 0..=r`). -/
def linePoints (x1 y1 x2 y2 : Nat) : List (Nat × Nat) :=
  (List.range (max (natDiff x1 x2) (natDiff y1 y2) + 1)).map
    (linePoint x1 y1 x2 y2)

/-- `Canvas::line`: sets every emitted point. -/
def Canvas.line (c : Canvas) (x1 y1 x2 y2 : Nat) : Canvas :=
  (linePoints x1 y1 x2 y2).foldl (fun c p => c.set p.1 p.2) c

/-- `Canvas::line_colored`: same points, set with a color. -/
def Canvas.line_colored (c : Canvas) (x1 y1 x2 y2 : Nat) (color : PixelColor) : Canvas :=
  (linePoints x1 y1 x2 y2).foldl (fun c p => c.set_colored p.1 p.2 color) c

/-- The mutable state of the midpoint loop in `Canvas::ellipse_center`:
`dx`, `dy` are u32 counters, `err` is an i32 accumulator. -/
structure EllState where
  dx : Nat
  dy : Nat
  err : Int
deriving DecidableEq, Repr

/-- The four guarded mirror writes performed at the top of each iteration of
the loop in `Canvas::ellipse_center`, in source order. The additions are
u32 additions (modulo 2^32); the subtractions only happen under the
`xm >= dx` / `ym >= dy` guards and so never wrap. -/
def mirrorPoints (xm ym dx dy : Nat) : List (Nat × Nat) :=
  [((xm + dx) % U32, (ym + dy) % U32)]
    ++ (if dx ≤ xm then
          [(xm - dx, (ym + dy) % U32)] ++ (if dy ≤ ym then [(xm - dx, ym - dy)] else [])
        else [])
    ++ (if dy ≤ ym then [((xm + dx) % U32, ym - dy)] else [])

/-- One pass of the error-update logic at the bottom of the loop in
`Canvas::ellipse_center`; the Bool is true when the loop breaks. -/
def ellStep (a2 b2 : Int) (st : EllState) : EllState × Bool :=
  let errPlus := wadd st.err st.err
  let newErr1 := wmul (wadd (wmul 2 (toI32 st.dx)) 1) b2
  let dx1 := if errPlus < newErr1 then (st.dx + 1) % U32 else st.dx
  let err1 := if errPlus < newErr1 then wadd st.err newErr1 else st.err
  let newErr2 := wmul (wsub (wmul 2 (toI32 st.dy)) 1) a2
  if errPlus > wneg newErr2 then
    if st.dy ≤ 1 then (⟨dx1, st.dy, err1⟩, true)
    else (⟨dx1, st.dy - 1, wsub err1 newErr2⟩, false)
  else (⟨dx1, st.dy, err1⟩, false)

/-- The (possibly non-terminating) `loop` of `Canvas::ellipse_center`,
iterated on explicit fuel: returns the points written in order and the
value of `dx` at the break, or `none` if the loop has not finished within
`fuel` iterations. -/
def ellLoop (xm ym : Nat) (a2 b2 : Int) : Nat → EllState → Option (List (Nat × Nat) × Nat)
  | 0, _ => none
  | fuel + 1, st =>
    let pts := mirrorPoints xm ym st.dx st.dy
    let next := ellStep a2 b2 st
    if next.2 then some (pts, next.1.dx)
    else (ellLoop xm ym a2 b2 fuel next.1).map fun rf => (pts ++ rf.1, rf.2)

/-- One structural unrolling of the trailing `while dx < a` loop of
`Canvas::ellipse_center`: the loop body runs exactly `a - dx` times, each
time incrementing `dx` and writing the two guarded horizontal points. -/
def ellTailAux (xm ym : Nat) : Nat → Nat → List (Nat × Nat)
  | 0, _ => []
  | n + 1, dx =>
    ([((xm + (dx + 1)) % U32, ym)]
        ++ (if dx + 1 ≤ xm then [(xm - (dx + 1), ym)] else []))
      ++ ellTailAux xm ym n (dx + 1)

/-- The trailing `while dx < a` loop of `Canvas::ellipse_center`, starting
from the value of `dx` at the break. -/
def ellTail (xm ym a dx : Nat) : List (Nat × Nat) :=
  ellTailAux xm ym (a - dx) dx

/-- The initial loop state of `Canvas::ellipse_center`:
`dx = 0`, `dy = b`, `err = b2 - (2 * b as i32 - 1) * a2`. -/
def ellInit (b : Nat) (a2 b2 : Int) : EllState :=
  ⟨0, b, wsub b2 (wmul (wsub (wmul 2 (toI32 b)) 1) a2)⟩

/-- All points written by `Canvas::ellipse_center(xm, ym, a, b)` in order,
with `a2 = (a as i32)^2`, `b2 = (b as i32)^2`, or `none` when the loop does
not finish within `fuel` iterations. -/
def ellipseCenterPoints (fuel xm ym a b : Nat) : Option (List (Nat × Nat)) :=
  let a2 := wmul (toI32 a) (toI32 a)
  let b2 := wmul (toI32 b) (toI32 b)
  (ellLoop xm ym a2 b2 fuel (ellInit b a2 b2)).map fun rf =>
    rf.1 ++ ellTail xm ym a rf.2

/-- `Canvas::ellipse_center`, applied to a canvas (sets every written point
in order), on explicit fuel. -/
def Canvas.ellipse_center (c : Canvas) (fuel xm ym a b : Nat) : Option Canvas :=
  (ellipseCenterPoints fuel xm ym a b).map fun pts =>
    pts.foldl (fun c p => c.set p.1 p.2) c

/-- The center and radii derived by `Canvas::ellipse_box`:
`delta = (c1 as i32 - c2 as i32) / 2` with truncating i32 division, center
`(c2 as i32 + delta) as u32`, radius `delta.abs() as u32`. -/
def ellipseBoxArgs (x1 y1 x2 y2 : Nat) : Nat × Nat × Nat × Nat :=
  let dx := Int.tdiv (wsub (toI32 x1) (toI32 x2)) 2
  let dy := Int.tdiv (wsub (toI32 y1) (toI32 y2)) 2
  (toU32 (wadd (toI32 x2) dx), toU32 (wadd (toI32 y2) dy), dx.natAbs, dy.natAbs)

/-- `Canvas::ellipse_box`: derives center and radii and delegates to
`ellipse_center`. -/
def Canvas.ellipse_box (c : Canvas) (fuel x1 y1 x2 y2 : Nat) : Option Canvas :=
  Canvas.ellipse_center c fuel (ellipseBoxArgs x1 y1 x2 y2).1
    (ellipseBoxArgs x1 y1 x2 y2).2.1 (ellipseBoxArgs x1 y1 x2 y2).2.2.1
    (ellipseBoxArgs x1 y1 x2 y2).2.2.2

/-- Rust `self.x.round() as i32` followed by `cmp::max(0, _) as u32`, as in
`Turtle::teleport`: the float-to-int cast saturates and maps NaN to 0, after
which negative values are clamped to 0. -/
def roundClampF32 (f : Float) : Nat :=
  let r := f.round
  if r ≥ 2147483647.0 then 2147483647
  else if r ≥ 0.0 then r.toUInt32.toNat
  else 0

/-- The `Turtle` struct. -/
structure Turtle where
  x : Float
  y : Float
  brush : Bool
  use_color : Bool
  brush_color : PixelColor
  rotation : Float
  cvs : Canvas

/-- `Turtle::new(x, y)`: fresh canvas, brush down, facing right. -/
def Turtle.new (x y : Float) : Turtle :=
  ⟨x, y, true, false, PixelColor.white, 0.0, Canvas.new 0 0⟩

/-- `Turtle::teleport(x, y)`: draws a (possibly colored) line from the
rounded, clamped old position to the rounded, clamped destination when the
brush is down, then unconditionally stores the new real-valued position. -/
def Turtle.teleport (t : Turtle) (x y : Float) : Turtle :=
  let cvs :=
    if t.brush then
      if t.use_color then
        t.cvs.line_colored (roundClampF32 t.x) (roundClampF32 t.y)
          (roundClampF32 x) (roundClampF32 y) t.brush_color
      else
        t.cvs.line (roundClampF32 t.x) (roundClampF32 t.y)
          (roundClampF32 x) (roundClampF32 y)
    else t.cvs
  { t with cvs := cvs, x := x, y := y }

/-- One `set` or `unset` call, for stating properties of arbitrary call
sequences against `Canvas::rows`. -/
inductive PixOp where
  | set (x y : Nat)
  | unset (x y : Nat)

/-- Apply one call. -/
def applyPixOp (c : Canvas) : PixOp → Canvas
  | PixOp.set x y => c.set x y
  | PixOp.unset x y => c.unset x y

/-- Apply a call sequence in order. -/
def applyPixOps (c : Canvas) (ops : List PixOp) : Canvas :=
  ops.foldl applyPixOp c

/-- The cell column (x cell coordinate) touched by a call. -/
def PixOp.cellX : PixOp → Nat
  | PixOp.set x _ => x / 2 % U16
  | PixOp.unset x _ => x / 2 % U16

/-- The cell row (y cell coordinate) touched by a call. -/
def PixOp.cellY : PixOp → Nat
  | PixOp.set _ y => y / 4 % U16
  | PixOp.unset _ y => y / 4 % U16

theorem lookupCell_updateCell (m : CharMap) (k : Nat × Nat) (f : Cell → Cell) :
    lookupCell (updateCell m k f) k = some (f ((lookupCell m k).getD defaultCell)) := by
  induction m with
  | nil => simp [updateCell, lookupCell]
  | cons kv rest ih =>
    obtain ⟨k0, v0⟩ := kv
    by_cases h : k0 = k
    · simp [updateCell, lookupCell, h]
    · simp [updateCell, lookupCell, h, ih]

theorem mem_of_lookupCell_eq_some {m : CharMap} {k : Nat × Nat} {v : Cell}
    (h : lookupCell m k = some v) : (k, v) ∈ m := by
  induction m with
  | nil => simp [lookupCell] at h
  | cons kv rest ih =>
    obtain ⟨k0, v0⟩ := kv
    by_cases hk : k0 = k
    · simp [lookupCell, hk] at h
      simp [hk, h]
    · simp [lookupCell, hk] at h
      exact List.mem_cons_of_mem _ (ih h)

theorem updateCell_pred {P : Cell → Prop} {m : CharMap} {k : Nat × Nat} {f : Cell → Cell}
    (hf : ∀ c, P c → P (f c)) (hd : P (f defaultCell))
    (hm : ∀ kv ∈ m, P kv.2) : ∀ kv ∈ updateCell m k f, P kv.2 := by
  induction m with
  | nil => simpa [updateCell] using hd
  | cons kv0 rest ih =>
    obtain ⟨k0, v0⟩ := kv0
    intro kv hkv
    by_cases hk : k0 = k
    · simp [updateCell, hk] at hkv
      rcases hkv with h | h
      · subst h
        exact hf v0 (hm (k0, v0) (List.mem_cons_self _ _))
      · exact hm kv (List.mem_cons_of_mem _ h)
    · simp [updateCell, hk] at hkv
      rcases hkv with h | h
      · subst h
        exact hm (k0, v0) (List.mem_cons_self _ _)
      · exact ih (fun kv h => hm kv (List.mem_cons_of_mem _ h)) kv h

theorem keyFold_cons (g : Nat × Nat → Nat) (kv : (Nat × Nat) × Cell) (m : CharMap) (i : Nat) :
    keyFold g (kv :: m) i = keyFold g m (max i (g kv.1)) := rfl

theorem keyFold_shift (g : Nat × Nat → Nat) (m : CharMap) (i j : Nat) :
    keyFold g m (max i j) = max (keyFold g m i) j := by
  induction m generalizing i with
  | nil => simp [keyFold]
  | cons kv rest ih =>
    rw [keyFold_cons, keyFold_cons, Nat.max_right_comm, ih]

theorem keyFold_updateCell (g : Nat × Nat → Nat) (m : CharMap) (k : Nat × Nat)
    (f : Cell → Cell) (i : Nat) :
    keyFold g (updateCell m k f) i = max (keyFold g m i) (g k) := by
  induction m generalizing i with
  | nil => simp [updateCell, keyFold]
  | cons kv rest ih =>
    obtain ⟨k0, v0⟩ := kv
    by_cases hk : k0 = k
    · subst hk
      rw [updateCell, if_pos rfl, keyFold_cons, keyFold_cons, ← keyFold_shift,
        Nat.max_assoc, Nat.max_self]
    · rw [updateCell, if_neg hk, keyFold_cons, keyFold_cons, ih]

theorem le_keyFold_init (g : Nat × Nat → Nat) (m : CharMap) (i : Nat) :
    i ≤ keyFold g m i := by
  induction m generalizing i with
  | nil => simp [keyFold]
  | cons kv rest ih =>
    rw [keyFold_cons]
    exact le_trans (Nat.le_max_left i (g kv.1)) (ih (max i (g kv.1)))

theorem keyFold_ge_of_mem {g : Nat × Nat → Nat} {m : CharMap} {k : Nat × Nat} {v : Cell}
    (h : (k, v) ∈ m) (i : Nat) : g k ≤ keyFold g m i := by
  induction m generalizing i with
  | nil => simp at h
  | cons kv rest ih =>
    rw [keyFold_cons]
    rcases List.mem_cons.mp h with h | h
    · subst h
      exact le_trans (Nat.le_max_right i (g k)) (le_keyFold_init g rest _)
    · exact ih h _

/-! ### Facts about dot bits -/

theorem dotBit_cases (x y : Nat) :
    dotBit x y = 1 ∨ dotBit x y = 2 ∨ dotBit x y = 4 ∨ dotBit x y = 8 ∨
      dotBit x y = 16 ∨ dotBit x y = 32 ∨ dotBit x y = 64 ∨ dotBit x y = 128 := by
  have hy : y % 4 = 0 ∨ y % 4 = 1 ∨ y % 4 = 2 ∨ y % 4 = 3 := by omega
  have hx : x % 2 = 0 ∨ x % 2 = 1 := by omega
  unfold dotBit pixelMap
  rcases hy with h | h | h | h <;> rcases hx with h2 | h2 <;> simp [h, h2]

theorem dotBit_isPowerOfTwo (x y : Nat) : ∃ p, p < 8 ∧ dotBit x y = 2 ^ p := by
  rcases dotBit_cases x y with h | h | h | h | h | h | h | h
  · exact ⟨0, by omega, by rw [h]; decide⟩
  · exact ⟨1, by omega, by rw [h]; decide⟩
  · exact ⟨2, by omega, by rw [h]; decide⟩
  · exact ⟨3, by omega, by rw [h]; decide⟩
  · exact ⟨4, by omega, by rw [h]; decide⟩
  · exact ⟨5, by omega, by rw [h]; decide⟩
  · exact ⟨6, by omega, by rw [h]; decide⟩
  · exact ⟨7, by omega, by rw [h]; decide⟩

theorem or_and_bit_ne_zero (bits b p : Nat) (hb : b = 2 ^ p) :
    ((bits ||| b) &&& b) ≠ 0 := by
  intro h
  have ht : ((bits ||| b) &&& b).testBit p = false := by rw [h]; exact Nat.zero_testBit p
  rw [Nat.testBit_and, Nat.testBit_or, hb, Nat.testBit_two_pow_self] at ht
  simp at ht

theorem and_mask_and_bit_eq_zero (bits x y : Nat) :
    ((bits &&& (255 ^^^ dotBit x y)) &&& dotBit x y) = 0 := by
  rw [Nat.and_assoc]
  have : (255 ^^^ dotBit x y) &&& dotBit x y = 0 := by
    rcases dotBit_cases x y with h | h | h | h | h | h | h | h <;> rw [h] <;> decide
  rw [this, Nat.and_zero]

/-! ### Pixel get/set/unset interaction -/

theorem get_set_alias (c : Canvas) (x y u v : Nat)
    (hk : cellKey u v = cellKey x y) (hb : dotBit u v = dotBit x y) :
    (c.set x y).get u v = true := by
  unfold Canvas.get Canvas.set
  simp only [hk, hb, lookupCell_updateCell]
  obtain ⟨p, _, hp⟩ := dotBit_isPowerOfTwo x y
  simpa using or_and_bit_ne_zero _ _ p hp

theorem get_unset_false (c : Canvas) (x y : Nat) : (c.unset x y).get x y = false := by
  unfold Canvas.get Canvas.unset
  simp only [lookupCell_updateCell]
  simpa using and_mask_and_bit_eq_zero _ x y

/-- C2: setting a pixel makes `get` at the same coordinates true, unsetting it
makes `get` false, and `get` on a coordinate whose cell was never created is
false; no bound on the coordinates is needed (the grid expands). -/
theorem set_get_unset_roundtrip (c : Canvas) (x y : Nat) :
    (c.set x y).get x y = true ∧ (c.unset x y).get x y = false ∧
      (lookupCell c.chars (cellKey x y) = none → c.get x y = false) := by
  refine ⟨get_set_alias c x y x y rfl rfl, get_unset_false c x y, fun h => ?_⟩
  unfold Canvas.get
  rw [h]

/-- Witness for `set_get_unset_roundtrip` at a coordinate far beyond the
constructed 10x10 dimensions. -/
theorem set_get_unset_roundtrip_witness :
    lookupCell (Canvas.new 10 10).chars (cellKey 1000001 999999) = none ∧
      (Canvas.new 10 10).get 1000001 999999 = false ∧
      ((Canvas.new 10 10).set 1000001 999999).get 1000001 999999 = true ∧
      ((Canvas.new 10 10).unset 1000001 999999).get 1000001 999999 = false :=
  ⟨rfl, (set_get_unset_roundtrip (Canvas.new 10 10) 1000001 999999).2.2 rfl,
    (set_get_unset_roundtrip (Canvas.new 10 10) 1000001 999999).1,
    (set_get_unset_roundtrip (Canvas.new 10 10) 1000001 999999).2.1⟩

/-- C9: all pixel operations key cells by the truncated pair
`(x/2 mod 2^16, y/4 mod 2^16)`, so pixel coordinates whose cell columns
differ by 65536 (pixel x by 131072) alias the same cell. -/
theorem set_get_aliasing (c : Canvas) (x y : Nat) (_h : x + 131072 < U32) :
    (c.set x y).get (x + 131072) y = true := by
  apply get_set_alias
  · unfold cellKey U16
    have : (x + 131072) / 2 % 65536 = x / 2 % 65536 := by omega
    simp [this]
  · unfold dotBit
    have : (x + 131072) % 2 = x % 2 := by omega
    rw [this]

/-- Witness for `set_get_aliasing`. -/
theorem set_get_aliasing_witness :
    5 + 131072 < U32 ∧ ((Canvas.new 3 3).set 5 7).get (5 + 131072) 7 = true :=
  ⟨by decide, set_get_aliasing (Canvas.new 3 3) 5 7 (by decide)⟩


/-! ### Facts about row serialization -/

theorem dotBit_ne_zero (x y : Nat) : dotBit x y ≠ 0 := by
  obtain ⟨p, _, hp⟩ := dotBit_isPowerOfTwo x y
  rw [hp]
  exact (Nat.two_pow_pos p).ne'


theorem renderCell_length_pos (cell : Cell) : 1 ≤ (renderCell cell).length := by
  unfold renderCell
  split
  · simp
  · split
    · simp
    · simp [colorWrap]

theorem renderCell_length_one {cell : Cell} (h : cell.colored = false) :
    (renderCell cell).length = 1 := by
  unfold renderCell
  split
  · simp
  · simp [h]

theorem le_length_flatMap {α : Type} (l : List α) (f : α → List Char)
    (h : ∀ x ∈ l, 1 ≤ (f x).length) : l.length ≤ (l.flatMap f).length := by
  induction l with
  | nil => simp
  | cons a rest ih =>
    simp only [List.flatMap_cons, List.length_append, List.length_cons]
    have h1 := h a (List.mem_cons_self a rest)
    have h2 := ih fun x hx => h x (List.mem_cons_of_mem a hx)
    omega

theorem length_flatMap_of_one {α : Type} (l : List α) (f : α → List Char)
    (h : ∀ x ∈ l, (f x).length = 1) : (l.flatMap f).length = l.length := by
  induction l with
  | nil => simp
  | cons a rest ih =>
    simp only [List.flatMap_cons, List.length_append, List.length_cons]
    rw [h a (List.mem_cons_self a rest), ih fun x hx => h x (List.mem_cons_of_mem a hx)]
    omega

theorem rows_length (c : Canvas) :
    c.rows.length = keyFold Prod.snd c.chars c.height + 1 := by
  simp [Canvas.rows]

theorem row_length_ge (c : Canvas) (row : List Char) (h : row ∈ c.rows) :
    keyFold Prod.fst c.chars c.width + 1 ≤ row.length := by
  unfold Canvas.rows at h
  obtain ⟨y, _, hrow⟩ := List.mem_map.mp h
  rw [← hrow]
  calc keyFold Prod.fst c.chars c.width + 1
      = (List.range (keyFold Prod.fst c.chars c.width + 1)).length := by
        rw [List.length_range]
    _ ≤ _ := le_length_flatMap _ _ fun x _ => renderCell_length_pos _

/-- C10: `unset` and `toggle` at a coordinate whose cell was never created
insert a default cell (with the dot bit cleared resp. flipped) rather than
being no-ops on storage; `get` afterwards reflects only the dot bit, and the
cell coordinate now counts toward the rendered extent of `rows`. -/
theorem unset_toggle_fresh_cell (c : Canvas) (x y : Nat)
    (h : lookupCell c.chars (cellKey x y) = none) :
    lookupCell (c.unset x y).chars (cellKey x y) = some defaultCell
    ∧ lookupCell (c.toggle x y).chars (cellKey x y)
        = some ⟨dotBit x y, ' ', false, PixelColor.white⟩
    ∧ (c.unset x y).get x y = false
    ∧ (c.toggle x y).get x y = true
    ∧ (cellKey x y).2 + 1 ≤ (c.unset x y).rows.length
    ∧ (∀ row ∈ (c.unset x y).rows, (cellKey x y).1 + 1 ≤ row.length)
    ∧ (cellKey x y).2 + 1 ≤ (c.toggle x y).rows.length
    ∧ (∀ row ∈ (c.toggle x y).rows, (cellKey x y).1 + 1 ≤ row.length) := by
  have hu : lookupCell (c.unset x y).chars (cellKey x y) = some defaultCell := by
    unfold Canvas.unset
    rw [lookupCell_updateCell, h]
    simp [defaultCell, Nat.zero_and]
  have ht : lookupCell (c.toggle x y).chars (cellKey x y)
      = some ⟨dotBit x y, ' ', false, PixelColor.white⟩ := by
    unfold Canvas.toggle
    rw [lookupCell_updateCell, h]
    simp [defaultCell, Nat.zero_xor]
  have hgett : (c.toggle x y).get x y = true := by
    unfold Canvas.get
    rw [ht]
    simp [Nat.and_self, dotBit_ne_zero x y]
  refine ⟨hu, ht, get_unset_false c x y, hgett, ?_, ?_, ?_, ?_⟩
  · rw [rows_length]
    have := keyFold_ge_of_mem (g := Prod.snd) (mem_of_lookupCell_eq_some hu)
      (c.unset x y).height
    omega
  · intro row hrow
    have := row_length_ge _ row hrow
    have h2 := keyFold_ge_of_mem (g := Prod.fst) (mem_of_lookupCell_eq_some hu)
      (c.unset x y).width
    omega
  · rw [rows_length]
    have := keyFold_ge_of_mem (g := Prod.snd) (mem_of_lookupCell_eq_some ht)
      (c.toggle x y).height
    omega
  · intro row hrow
    have := row_length_ge _ row hrow
    have h2 := keyFold_ge_of_mem (g := Prod.fst) (mem_of_lookupCell_eq_some ht)
      (c.toggle x y).width
    omega

/-- Witness for `unset_toggle_fresh_cell` on a fresh canvas: the touched cell
key is (4, 2), so the canvas renders at least 3 rows afterwards. -/
theorem unset_toggle_fresh_cell_witness :
    lookupCell (Canvas.new 2 2).chars (cellKey 9 10) = none
    ∧ lookupCell ((Canvas.new 2 2).unset 9 10).chars (cellKey 9 10) = some defaultCell
    ∧ ((Canvas.new 2 2).unset 9 10).get 9 10 = false
    ∧ ((Canvas.new 2 2).toggle 9 10).get 9 10 = true
    ∧ (cellKey 9 10).2 + 1 ≤ ((Canvas.new 2 2).unset 9 10).rows.length
    ∧ (cellKey 9 10).2 + 1 ≤ ((Canvas.new 2 2).toggle 9 10).rows.length :=
  ⟨rfl, (unset_toggle_fresh_cell (Canvas.new 2 2) 9 10 rfl).1,
    (unset_toggle_fresh_cell (Canvas.new 2 2) 9 10 rfl).2.2.1,
    (unset_toggle_fresh_cell (Canvas.new 2 2) 9 10 rfl).2.2.2.1,
    (unset_toggle_fresh_cell (Canvas.new 2 2) 9 10 rfl).2.2.2.2.1,
    (unset_toggle_fresh_cell (Canvas.new 2 2) 9 10 rfl).2.2.2.2.2.2.1⟩


/-! ### Rows extent after sequences of set/unset calls -/

def pixKey : PixOp → Nat × Nat
  | PixOp.set x y => cellKey x y
  | PixOp.unset x y => cellKey x y

theorem pixKey_fst (op : PixOp) : (pixKey op).1 = op.cellX := by
  cases op <;> rfl

theorem pixKey_snd (op : PixOp) : (pixKey op).2 = op.cellY := by
  cases op <;> rfl

theorem applyPixOp_width (c : Canvas) (op : PixOp) : (applyPixOp c op).width = c.width := by
  cases op <;> rfl

theorem applyPixOp_height (c : Canvas) (op : PixOp) : (applyPixOp c op).height = c.height := by
  cases op <;> rfl

theorem applyPixOps_width (c : Canvas) (ops : List PixOp) :
    (applyPixOps c ops).width = c.width := by
  induction ops generalizing c with
  | nil => rfl
  | cons op rest ih => rw [applyPixOps, List.foldl_cons, ← applyPixOps, ih, applyPixOp_width]

theorem applyPixOps_height (c : Canvas) (ops : List PixOp) :
    (applyPixOps c ops).height = c.height := by
  induction ops generalizing c with
  | nil => rfl
  | cons op rest ih => rw [applyPixOps, List.foldl_cons, ← applyPixOps, ih, applyPixOp_height]

theorem keyFold_applyPixOp (g : Nat × Nat → Nat) (c : Canvas) (op : PixOp) (i : Nat) :
    keyFold g (applyPixOp c op).chars i = max (keyFold g c.chars i) (g (pixKey op)) := by
  cases op <;> exact keyFold_updateCell g c.chars _ _ i

theorem keyFold_applyPixOps (g : Nat × Nat → Nat) (c : Canvas) (ops : List PixOp) (i : Nat) :
    keyFold g (applyPixOps c ops).chars i
      = ops.foldl (fun m op => max m (g (pixKey op))) (keyFold g c.chars i) := by
  induction ops generalizing c with
  | nil => rfl
  | cons op rest ih =>
    rw [applyPixOps, List.foldl_cons, ← applyPixOps, ih, List.foldl_cons,
      keyFold_applyPixOp]

theorem uncolored_applyPixOp (c : Canvas) (op : PixOp)
    (hc : ∀ kv ∈ c.chars, kv.2.colored = false) :
    ∀ kv ∈ (applyPixOp c op).chars, kv.2.colored = false := by
  cases op with
  | set x y => exact updateCell_pred (P := fun cl => cl.colored = false) (fun _ _ => rfl) rfl hc
  | unset x y => exact updateCell_pred (P := fun cl => cl.colored = false) (fun a ha => ha) rfl hc

theorem uncolored_applyPixOps (c : Canvas) (ops : List PixOp)
    (hc : ∀ kv ∈ c.chars, kv.2.colored = false) :
    ∀ kv ∈ (applyPixOps c ops).chars, kv.2.colored = false := by
  induction ops generalizing c with
  | nil => exact hc
  | cons op rest ih =>
    rw [applyPixOps, List.foldl_cons, ← applyPixOps]
    exact ih _ (uncolored_applyPixOp c op hc)

theorem row_length_eq (c : Canvas) (hc : ∀ kv ∈ c.chars, kv.2.colored = false)
    (row : List Char) (h : row ∈ c.rows) :
    row.length = keyFold Prod.fst c.chars c.width + 1 := by
  unfold Canvas.rows at h
  obtain ⟨y, _, hrow⟩ := List.mem_map.mp h
  rw [← hrow]
  rw [length_flatMap_of_one, List.length_range]
  intro x _
  rcases hlk : lookupCell c.chars (x, y) with _ | v
  · simp only [hlk, Option.getD_none]
    exact renderCell_length_one rfl
  · simp only [hlk, Option.getD_some]
    exact renderCell_length_one (hc (⟨x, y⟩, v) (mem_of_lookupCell_eq_some hlk))

theorem lookupCell_updateCell_ne (m : CharMap) (k j : Nat × Nat) (f : Cell → Cell)
    (h : j ≠ k) : lookupCell (updateCell m k f) j = lookupCell m j := by
  induction m with
  | nil => simp [updateCell, lookupCell, Ne.symm h]
  | cons kv rest ih =>
    obtain ⟨k0, v0⟩ := kv
    by_cases hk : k0 = k
    · subst hk
      simp [updateCell, lookupCell, Ne.symm h]
    · simp [updateCell, lookupCell, hk, ih]

theorem applyPixOp_chars_eq (c : Canvas) (op : PixOp) :
    ∃ f, (applyPixOp c op).chars = updateCell c.chars (pixKey op) f := by
  cases op with
  | set x y => exact ⟨_, rfl⟩
  | unset x y => exact ⟨_, rfl⟩

theorem lookup_applyPixOps_untouched (c : Canvas) (ops : List PixOp) (k : Nat × Nat)
    (h : ∀ op ∈ ops, pixKey op ≠ k) :
    lookupCell (applyPixOps c ops).chars k = lookupCell c.chars k := by
  induction ops generalizing c with
  | nil => rfl
  | cons op rest ih =>
    rw [applyPixOps, List.foldl_cons, ← applyPixOps]
    rw [ih _ fun o ho => h o (List.mem_cons_of_mem _ ho)]
    obtain ⟨f, hf⟩ := applyPixOp_chars_eq c op
    rw [hf, lookupCell_updateCell_ne c.chars (pixKey op) k f
      (Ne.symm (h op (List.mem_cons_self _ _)))]

/-- C3: after an arbitrary sequence of set/unset calls on a fresh canvas,
`rows()` returns exactly `max(configured minimum cell height, touched cell
rows) + 1` rows, each of exactly `max(configured minimum cell width, touched
cell columns) + 1` characters; every rendered row whose cell row none of the
calls touched is entirely blank (so rows below the configured minimum are
blank-padded even if untouched), and all rows of an untouched canvas are
blank. -/
theorem rows_extent_after_ops (w h : Nat) (ops : List PixOp) :
    (applyPixOps (Canvas.new w h) ops).rows.length
        = ops.foldl (fun m op => max m op.cellY) (Canvas.new w h).height + 1
    ∧ (∀ row ∈ (applyPixOps (Canvas.new w h) ops).rows,
        row.length = ops.foldl (fun m op => max m op.cellX) (Canvas.new w h).width + 1)
    ∧ (∀ y : Nat, (∀ op ∈ ops, op.cellY ≠ y) →
        ∀ row, (applyPixOps (Canvas.new w h) ops).rows[y]? = some row →
          ∀ ch ∈ row, ch = ' ')
    ∧ (∀ row ∈ (Canvas.new w h).rows, ∀ ch ∈ row, ch = ' ') := by
  have hfoldY : ∀ init : Nat,
      ops.foldl (fun m op => max m (Prod.snd (pixKey op))) init
        = ops.foldl (fun m op => max m op.cellY) init := by
    intro init
    exact List.foldl_ext _ _ init fun b op _ => by rw [pixKey_snd]
  have hfoldX : ∀ init : Nat,
      ops.foldl (fun m op => max m (Prod.fst (pixKey op))) init
        = ops.foldl (fun m op => max m op.cellX) init := by
    intro init
    exact List.foldl_ext _ _ init fun b op _ => by rw [pixKey_fst]
  refine ⟨?_, ?_, ?_, ?_⟩
  · rw [rows_length, applyPixOps_height, keyFold_applyPixOps, hfoldY]
    rfl
  · intro row hrow
    rw [row_length_eq _ (uncolored_applyPixOps _ _ (by simp [Canvas.new])) row hrow,
      applyPixOps_width, keyFold_applyPixOps, hfoldX]
    rfl
  · intro y hy row hrow ch hch
    unfold Canvas.rows at hrow
    rw [List.getElem?_map] at hrow
    by_cases hlt : y < keyFold Prod.snd (applyPixOps (Canvas.new w h) ops).chars
        (applyPixOps (Canvas.new w h) ops).height + 1
    · rw [List.getElem?_range hlt] at hrow
      simp only [Option.map_some', Option.some.injEq] at hrow
      subst hrow
      obtain ⟨x, _, hcc⟩ := List.mem_flatMap.mp hch
      have hnone : lookupCell (applyPixOps (Canvas.new w h) ops).chars (x, y) = none := by
        rw [lookup_applyPixOps_untouched _ _ _
          fun op hop he => hy op hop (by rw [← pixKey_snd op, he])]
        rfl
      rw [hnone] at hcc
      simpa [renderCell, defaultCell] using hcc
    · have hnone : (List.range (keyFold Prod.snd (applyPixOps (Canvas.new w h) ops).chars
          (applyPixOps (Canvas.new w h) ops).height + 1))[y]? = none := by
        rw [List.getElem?_eq_none]
        rw [List.length_range]
        omega
      rw [hnone] at hrow
      simp at hrow
  · intro row hrow ch hch
    unfold Canvas.rows at hrow
    obtain ⟨y, _, hrowEq⟩ := List.mem_map.mp hrow
    rw [← hrowEq] at hch
    obtain ⟨x, _, hc⟩ := List.mem_flatMap.mp hch
    have : lookupCell (Canvas.new w h).chars (x, y) = none := rfl
    rw [this] at hc
    simpa [renderCell, defaultCell] using hc


/-- Witness for `rows_extent_after_ops`: on a 4 x 8 canvas, one set call at
(3, 9) touches cell row 2, so the canvas renders 3 rows, and the untouched
row 1 (below the configured minimum of 2) renders entirely blank. -/
theorem rows_extent_after_ops_witness :
    (applyPixOps (Canvas.new 4 8) [PixOp.set 3 9]).rows.length
      = [PixOp.set 3 9].foldl (fun m op => max m op.cellY) (Canvas.new 4 8).height + 1
    ∧ (applyPixOps (Canvas.new 4 8) [PixOp.set 3 9]).rows[1]? = some [' ', ' ', ' ']
    ∧ (∀ ch ∈ [' ', ' ', ' '], ch = ' ') :=
  ⟨(rows_extent_after_ops 4 8 [PixOp.set 3 9]).1, by decide,
    (rows_extent_after_ops 4 8 [PixOp.set 3 9]).2.2.1 1 (by decide) [' ', ' ', ' ']
      (by decide)⟩

/-! ### Construction extents -/

/-- C7 (amended): for pixel dimensions below 131072 x 262144 the minimum cell
extents are exactly the floor divisions by 2 and 4, and an untouched canvas
renders `height/4 + 1` rows of `width/2 + 1` characters each; for larger
dimensions the `as u16` cast truncates the quotient modulo 2^16. -/
theorem new_extents (w h : Nat) (hw : w < 131072) (hh : h < 262144) :
    (Canvas.new w h).width = w / 2 ∧ (Canvas.new w h).height = h / 4
    ∧ (Canvas.new w h).rows.length = h / 4 + 1
    ∧ (∀ row ∈ (Canvas.new w h).rows, row.length = w / 2 + 1) := by
  have hwidth : (Canvas.new w h).width = w / 2 := by
    show w / 2 % U16 = w / 2
    unfold U16
    omega
  have hheight : (Canvas.new w h).height = h / 4 := by
    show h / 4 % U16 = h / 4
    unfold U16
    omega
  refine ⟨hwidth, hheight, ?_, ?_⟩
  · rw [rows_length]
    show keyFold Prod.snd [] (Canvas.new w h).height + 1 = h / 4 + 1
    rw [keyFold, List.foldl_nil, hheight]
  · intro row hrow
    rw [row_length_eq _ (by simp [Canvas.new]) row hrow]
    show keyFold Prod.fst [] (Canvas.new w h).width + 1 = w / 2 + 1
    rw [keyFold, List.foldl_nil, hwidth]

/-- Witness for `new_extents` at the 10 x 10 canvas of the crate example. -/
theorem new_extents_witness :
    10 < 131072 ∧ 10 < 262144 ∧ (Canvas.new 10 10).width = 10 / 2
    ∧ (Canvas.new 10 10).height = 10 / 4
    ∧ (Canvas.new 10 10).rows.length = 10 / 4 + 1 :=
  ⟨by decide, by decide, (new_extents 10 10 (by decide) (by decide)).1,
    (new_extents 10 10 (by decide) (by decide)).2.1,
    (new_extents 10 10 (by decide) (by decide)).2.2.1⟩

/-- Counterexample to C7 as stated: at pixel width 131072 the computed
minimum extent is `(131072 / 2) as u16 = 0`, not `floor(131072 / 2) = 65536`. -/
theorem new_extents_counterexample : (Canvas.new 131072 0).width ≠ 131072 / 2 := by
  decide


/-! ### The line rasterizer -/

theorem lineOff_eq_div (diff r i : Nat) (hd : diff ≤ r) (hr : r ≤ 65535) (hi : i ≤ r) :
    lineOff diff r i = i * diff / r := by
  unfold lineOff
  split
  · simp [*]
  · congr 1
    apply Nat.mod_eq_of_lt
    calc i * diff ≤ r * r := Nat.mul_le_mul hi hd
      _ ≤ 65535 * 65535 := Nat.mul_le_mul hr hr
      _ < U32 := by unfold U32; norm_num

theorem div_le_diff (diff r i : Nat) (hd : diff ≤ r) (hi : i ≤ r) :
    i * diff / r ≤ diff := by
  rcases Nat.eq_zero_or_pos r with h0 | h0
  · subst h0
    simp
  · calc i * diff / r ≤ r * diff / r := Nat.div_le_div_right (Nat.mul_le_mul_right _ hi)
      _ = diff := Nat.mul_div_cancel_left diff h0

theorem div_step_le (diff r i : Nat) (hd : diff ≤ r) (h0 : 0 < r) :
    (i + 1) * diff / r ≤ i * diff / r + 1 := by
  have he : (i + 1) * diff = i * diff + diff := by ring
  rw [he]
  calc (i * diff + diff) / r ≤ (i * diff + r) / r := Nat.div_le_div_right (by omega)
    _ = i * diff / r + 1 := Nat.add_div_right _ h0

theorem div_step_ge (diff r i : Nat) : i * diff / r ≤ (i + 1) * diff / r :=
  Nat.div_le_div_right (Nat.mul_le_mul_right diff (Nat.le_succ i))

theorem toU32_add_off (x1 x2 off : Nat) (h1 : x1 < U32) (h2 : x2 < U32)
    (hoff : off ≤ natDiff x1 x2) :
    toU32 ((x1 : Int) + (if x1 ≤ x2 then (1 : Int) else -1) * off)
      = if x1 ≤ x2 then x1 + off else x1 - off := by
  unfold natDiff at hoff
  unfold toU32 U32 at *
  split
  case isTrue h =>
    rw [Nat.max_eq_right h, Nat.min_eq_left h] at hoff
    omega
  case isFalse h =>
    have h' : x2 ≤ x1 := le_of_not_le h
    rw [Nat.max_eq_left h', Nat.min_eq_right h'] at hoff
    omega

theorem linePoint_eq (x1 y1 x2 y2 i : Nat) (hx1 : x1 < U32) (hy1 : y1 < U32)
    (hx2 : x2 < U32) (hy2 : y2 < U32)
    (hr : max (natDiff x1 x2) (natDiff y1 y2) ≤ 65535)
    (hi : i ≤ max (natDiff x1 x2) (natDiff y1 y2)) :
    linePoint x1 y1 x2 y2 i
      = ((if x1 ≤ x2
            then x1 + i * natDiff x1 x2 / max (natDiff x1 x2) (natDiff y1 y2)
            else x1 - i * natDiff x1 x2 / max (natDiff x1 x2) (natDiff y1 y2)),
         (if y1 ≤ y2
            then y1 + i * natDiff y1 y2 / max (natDiff x1 x2) (natDiff y1 y2)
            else y1 - i * natDiff y1 y2 / max (natDiff x1 x2) (natDiff y1 y2))) := by
  simp only [linePoint]
  rw [lineOff_eq_div _ _ _ (Nat.le_max_left _ _) hr hi,
    lineOff_eq_div _ _ _ (Nat.le_max_right _ _) hr hi]
  refine Prod.ext ?_ ?_
  · exact toU32_add_off x1 x2 _ hx1 hx2
      (div_le_diff _ _ _ (Nat.le_max_left _ _) hi)
  · exact toU32_add_off y1 y2 _ hy1 hy2
      (div_le_diff _ _ _ (Nat.le_max_right _ _) hi)

theorem linePoint_fst (x1 y1 x2 y2 i : Nat) (hx1 : x1 < U32) (hy1 : y1 < U32)
    (hx2 : x2 < U32) (hy2 : y2 < U32)
    (hr : max (natDiff x1 x2) (natDiff y1 y2) ≤ 65535)
    (hi : i ≤ max (natDiff x1 x2) (natDiff y1 y2)) :
    (linePoint x1 y1 x2 y2 i).1
      = if x1 ≤ x2
          then x1 + i * natDiff x1 x2 / max (natDiff x1 x2) (natDiff y1 y2)
          else x1 - i * natDiff x1 x2 / max (natDiff x1 x2) (natDiff y1 y2) := by
  rw [linePoint_eq x1 y1 x2 y2 i hx1 hy1 hx2 hy2 hr hi]

theorem linePoint_snd (x1 y1 x2 y2 i : Nat) (hx1 : x1 < U32) (hy1 : y1 < U32)
    (hx2 : x2 < U32) (hy2 : y2 < U32)
    (hr : max (natDiff x1 x2) (natDiff y1 y2) ≤ 65535)
    (hi : i ≤ max (natDiff x1 x2) (natDiff y1 y2)) :
    (linePoint x1 y1 x2 y2 i).2
      = if y1 ≤ y2
          then y1 + i * natDiff y1 y2 / max (natDiff x1 x2) (natDiff y1 y2)
          else y1 - i * natDiff y1 y2 / max (natDiff x1 x2) (natDiff y1 y2) := by
  rw [linePoint_eq x1 y1 x2 y2 i hx1 hy1 hx2 hy2 hr hi]

theorem getLast_range_map {α : Type} (f : Nat → α) (n : Nat) :
    ((List.range (n + 1)).map f).getLast? = some (f n) := by
  rw [List.range_succ, List.map_append, List.map_singleton, List.getLast?_concat]

/-- C1 (amended): for endpoints whose larger axis difference is at most 65535
(so that the u32 product `i * diff` inside the loop cannot wrap), the loop of
`Canvas::line` emits exactly `max(|dx|, |dy|) + 1` points, the first being
`(x1, y1)`, the last `(x2, y2)`, and consecutive points differ by at most 1
on each axis. -/
theorem line_points_spec (x1 y1 x2 y2 : Nat) (hx1 : x1 < U32) (hy1 : y1 < U32)
    (hx2 : x2 < U32) (hy2 : y2 < U32)
    (hr : max (natDiff x1 x2) (natDiff y1 y2) ≤ 65535) :
    (linePoints x1 y1 x2 y2).length = max (natDiff x1 x2) (natDiff y1 y2) + 1
    ∧ (linePoints x1 y1 x2 y2).head? = some (x1, y1)
    ∧ (linePoints x1 y1 x2 y2).getLast? = some (x2, y2)
    ∧ List.Chain' (fun p q => natDiff p.1 q.1 ≤ 1 ∧ natDiff p.2 q.2 ≤ 1)
        (linePoints x1 y1 x2 y2) := by
  refine ⟨by simp [linePoints], ?_, ?_, ?_⟩
  · unfold linePoints
    rw [List.range_succ_eq_map]
    simp only [List.map_cons, List.head?_cons]
    refine congrArg some (Prod.ext ?_ ?_)
    · rw [linePoint_fst x1 y1 x2 y2 0 hx1 hy1 hx2 hy2 hr (Nat.zero_le _)]
      split <;> simp
    · rw [linePoint_snd x1 y1 x2 y2 0 hx1 hy1 hx2 hy2 hr (Nat.zero_le _)]
      split <;> simp
  · unfold linePoints
    rw [getLast_range_map]
    refine congrArg some (Prod.ext ?_ ?_)
    · rw [linePoint_fst x1 y1 x2 y2 _ hx1 hy1 hx2 hy2 hr le_rfl]
      rcases Nat.eq_zero_or_pos (max (natDiff x1 x2) (natDiff y1 y2)) with h0 | h0
      · have hx0 : natDiff x1 x2 = 0 := by omega
        rw [hx0]
        simp only [Nat.mul_zero, Nat.zero_div, Nat.add_zero, Nat.sub_zero, ite_self]
        unfold natDiff at hx0
        omega
      · rw [Nat.mul_div_cancel_left _ h0]
        unfold natDiff
        split <;> omega
    · rw [linePoint_snd x1 y1 x2 y2 _ hx1 hy1 hx2 hy2 hr le_rfl]
      rcases Nat.eq_zero_or_pos (max (natDiff x1 x2) (natDiff y1 y2)) with h0 | h0
      · have hy0 : natDiff y1 y2 = 0 := by omega
        rw [hy0]
        simp only [Nat.mul_zero, Nat.zero_div, Nat.add_zero, Nat.sub_zero, ite_self]
        unfold natDiff at hy0
        omega
      · rw [Nat.mul_div_cancel_left _ h0]
        unfold natDiff
        split <;> omega
  · unfold linePoints
    rw [List.chain'_map, List.chain'_range_succ]
    intro m hm
    simp only [Nat.succ_eq_add_one]
    have h0 : 0 < max (natDiff x1 x2) (natDiff y1 y2) := by omega
    refine ⟨?_, ?_⟩
    · rw [linePoint_fst x1 y1 x2 y2 m hx1 hy1 hx2 hy2 hr (by omega),
        linePoint_fst x1 y1 x2 y2 (m + 1) hx1 hy1 hx2 hy2 hr (by omega)]
      have hxs := div_step_le (natDiff x1 x2) _ m (Nat.le_max_left _ _) h0
      have hxg := div_step_ge (natDiff x1 x2) (max (natDiff x1 x2) (natDiff y1 y2)) m
      unfold natDiff at hxs hxg ⊢
      split <;> omega
    · rw [linePoint_snd x1 y1 x2 y2 m hx1 hy1 hx2 hy2 hr (by omega),
        linePoint_snd x1 y1 x2 y2 (m + 1) hx1 hy1 hx2 hy2 hr (by omega)]
      have hys := div_step_le (natDiff y1 y2) _ m (Nat.le_max_right _ _) h0
      have hyg := div_step_ge (natDiff y1 y2) (max (natDiff x1 x2) (natDiff y1 y2)) m
      unfold natDiff at hys hyg ⊢
      split <;> omega

/-- Witness for `line_points_spec` on the line (2,2)-(8,8) of the crate
example. -/
theorem line_points_spec_witness :
    max (natDiff 2 8) (natDiff 2 8) ≤ 65535
    ∧ ((linePoints 2 2 8 8).length = max (natDiff 2 8) (natDiff 2 8) + 1
      ∧ (linePoints 2 2 8 8).head? = some (2, 2)
      ∧ (linePoints 2 2 8 8).getLast? = some (8, 8)
      ∧ List.Chain' (fun p q => natDiff p.1 q.1 ≤ 1 ∧ natDiff p.2 q.2 ≤ 1)
          (linePoints 2 2 8 8)) :=
  ⟨by decide, line_points_spec 2 2 8 8 (by decide) (by decide) (by decide) (by decide)
    (by decide)⟩

/-- Counterexample to C1 as stated: for the endpoints (0,0)-(65536,0) the u32
product `i * xdiff` wraps modulo 2^32 at the final iteration, so the last
emitted point is (0,0), not the endpoint (65536,0). -/
theorem line_points_counterexample :
    (linePoints 0 0 65536 0).getLast? ≠ some (65536, 0) := by
  unfold linePoints
  rw [getLast_range_map]
  decide


/-! ### Ellipse: termination and the box form -/

theorem ellLoop_zero_radii (xm ym : Nat) :
    ∀ n : Nat, ellLoop xm ym 0 0 n ⟨0, 0, 0⟩ = none := by
  intro n
  induction n with
  | zero => rfl
  | succ n ih =>
    have hstep : ellStep 0 0 ⟨0, 0, 0⟩ = (⟨0, 0, 0⟩, false) := by decide
    simp [ellLoop, hstep, ih]

/-- C4 is violated by the code: with both radii zero neither error-update
branch of the loop in `Canvas::ellipse_center` can ever fire (`a2 = b2 = 0`
forces `err_plus = new_err1 = new_err2 = 0`), so the loop never reaches its
`break`, whatever the center: the call never terminates. -/
theorem ellipse_center_zero_radii_diverges (xm ym : Nat) :
    ∀ fuel : Nat, ellipseCenterPoints fuel xm ym 0 0 = none := by
  intro fuel
  have ha : wmul (toI32 0) (toI32 0) = 0 := by decide
  have hinit : ellInit 0 0 0 = ⟨0, 0, 0⟩ := by decide
  simp [ellipseCenterPoints, ha, hinit, ellLoop_zero_radii]

/-- Witness for `ellipse_center_zero_radii_diverges`: the degenerate call
`ellipse_center(5, 5, 0, 0)` makes no progress within 1000 iterations. -/
theorem ellipse_center_zero_radii_diverges_witness :
    ellipseCenterPoints 1000 5 5 0 0 = none :=
  ellipse_center_zero_radii_diverges 5 5 1000

/-! ### The ellipse box derivation under corner exchange -/

theorem wrap32_congr (a b : Int) (h : a % 4294967296 = b % 4294967296) :
    wrap32 a = wrap32 b := by
  unfold wrap32
  omega

theorem toI32_decomp (n : Nat) :
    toI32 n = (n : Int) - 4294967296 * (((n : Int) + 2147483648) / 4294967296) := by
  unfold toI32 wrap32
  rw [Int.emod_def]
  ring

theorem ellipse_box_axis_swap (a b : Nat) (ha : a < U32) (hb : b < U32)
    (he : natDiff a b % 2 = 0) (hbnd : natDiff a b < 2147483648) :
    toU32 (wadd (toI32 b) (Int.tdiv (wsub (toI32 a) (toI32 b)) 2))
        = toU32 (wadd (toI32 a) (Int.tdiv (wsub (toI32 b) (toI32 a)) 2))
    ∧ (Int.tdiv (wsub (toI32 a) (toI32 b)) 2).natAbs
        = (Int.tdiv (wsub (toI32 b) (toI32 a)) 2).natAbs := by
  unfold natDiff at he hbnd
  unfold U32 at ha hb
  have hd1 : wsub (toI32 a) (toI32 b) = (a : Int) - b := by
    unfold wsub toI32 wrap32
    omega
  have hd2 : wsub (toI32 b) (toI32 a) = (b : Int) - a := by
    unfold wsub toI32 wrap32
    omega
  obtain ⟨k, hk⟩ : ∃ k : Int, (a : Int) - b = 2 * k := ⟨((a : Int) - b) / 2, by omega⟩
  have hba : (b : Int) - a = 2 * (-k) := by omega
  rw [hd1, hd2, hk, hba, Int.mul_tdiv_cancel_left _ (by norm_num),
    Int.mul_tdiv_cancel_left _ (by norm_num), Int.natAbs_neg]
  refine ⟨?_, rfl⟩
  have hcong : wadd (toI32 b) k = wadd (toI32 a) (-k) := by
    unfold wadd
    apply wrap32_congr
    rw [Int.emod_eq_emod_iff_emod_sub_eq_zero]
    have hd : (toI32 b + k) - (toI32 a + -k)
        = 4294967296 * ((((a : Int) + 2147483648) / 4294967296)
            - (((b : Int) + 2147483648) / 4294967296)) := by
      rw [toI32_decomp a, toI32_decomp b]
      linear_combination -hk
    rw [hd]
    exact Int.mul_emod_right _ _
  rw [hcong]

/-- C6 (amended): `ellipse_box` derives the same center and radii from either
corner ordering whenever both side differences are even and below 2^31 (and
therefore paints the same pixels); the truncating division `(x1 - x2) / 2` is
not antisymmetric on odd differences, so the orderings can disagree there. -/
theorem ellipse_box_corner_order (x1 y1 x2 y2 : Nat)
    (hx1 : x1 < U32) (hy1 : y1 < U32) (hx2 : x2 < U32) (hy2 : y2 < U32)
    (hxe : natDiff x1 x2 % 2 = 0) (hye : natDiff y1 y2 % 2 = 0)
    (hxb : natDiff x1 x2 < 2147483648) (hyb : natDiff y1 y2 < 2147483648) :
    ellipseBoxArgs x1 y1 x2 y2 = ellipseBoxArgs x2 y2 x1 y1
    ∧ ∀ (c : Canvas) (fuel : Nat),
        Canvas.ellipse_box c fuel x1 y1 x2 y2 = Canvas.ellipse_box c fuel x2 y2 x1 y1 := by
  have hx := ellipse_box_axis_swap x1 x2 hx1 hx2 hxe hxb
  have hy := ellipse_box_axis_swap y1 y2 hy1 hy2 hye hyb
  have hargs : ellipseBoxArgs x1 y1 x2 y2 = ellipseBoxArgs x2 y2 x1 y1 := by
    simp only [ellipseBoxArgs, Prod.mk.injEq]
    exact ⟨hx.1, hy.1, hx.2, hy.2⟩
  refine ⟨hargs, fun c fuel => ?_⟩
  unfold Canvas.ellipse_box
  rw [hargs]

/-- Witness for `ellipse_box_corner_order` on the even 4 x 2 box. -/
theorem ellipse_box_corner_order_witness :
    natDiff 4 0 % 2 = 0 ∧ natDiff 2 0 % 2 = 0
    ∧ ellipseBoxArgs 4 2 0 0 = ellipseBoxArgs 0 0 4 2
    ∧ Canvas.ellipse_box (Canvas.new 0 0) 9 4 2 0 0
        = Canvas.ellipse_box (Canvas.new 0 0) 9 0 0 4 2 :=
  ⟨by decide, by decide,
    (ellipse_box_corner_order 4 2 0 0 (by decide) (by decide) (by decide) (by decide)
      (by decide) (by decide) (by decide) (by decide)).1,
    (ellipse_box_corner_order 4 2 0 0 (by decide) (by decide) (by decide) (by decide)
      (by decide) (by decide) (by decide) (by decide)).2 (Canvas.new 0 0) 9⟩

/-- Counterexample to C6 as stated: the box (3,0)-(0,0) has an odd width, and
the two corner orderings derive centers 1 and 2 respectively and paint
different pixel sets. -/
theorem ellipse_box_corner_order_counterexample :
    ellipseBoxArgs 3 0 0 0 ≠ ellipseBoxArgs 0 0 3 0
    ∧ Canvas.ellipse_box (Canvas.new 0 0) 10 3 0 0 0
        ≠ Canvas.ellipse_box (Canvas.new 0 0) 10 0 0 3 0 := by
  have h1 : Canvas.ellipse_box (Canvas.new 0 0) 10 3 0 0 0
      = some ⟨[((0, 0), ⟨9, ' ', false, PixelColor.white⟩),
               ((1, 0), ⟨1, ' ', false, PixelColor.white⟩)], 0, 0⟩ := by decide
  have h2 : Canvas.ellipse_box (Canvas.new 0 0) 10 0 0 3 0
      = some ⟨[((1, 0), ⟨9, ' ', false, PixelColor.white⟩),
               ((0, 0), ⟨8, ' ', false, PixelColor.white⟩)], 0, 0⟩ := by decide
  refine ⟨by decide, ?_⟩
  rw [h1, h2]
  decide


/-! ### Turtle teleport -/

/-- C8: `teleport` stores the exact real-valued destination regardless of pen
state, and with the pen up it changes nothing else: the canvas (hence every
pixel) and the heading, pen flag and color state are untouched. -/
theorem teleport_spec (t : Turtle) (x y : Float) :
    ((t.teleport x y).x = x ∧ (t.teleport x y).y = y)
    ∧ (t.brush = false →
        (t.teleport x y).cvs = t.cvs
        ∧ (∀ px py : Nat, (t.teleport x y).cvs.get px py = t.cvs.get px py)
        ∧ (t.teleport x y).brush = t.brush
        ∧ (t.teleport x y).use_color = t.use_color
        ∧ (t.teleport x y).brush_color = t.brush_color
        ∧ (t.teleport x y).rotation = t.rotation) := by
  refine ⟨⟨rfl, rfl⟩, fun h => ?_⟩
  have hcvs : (t.teleport x y).cvs = t.cvs := by
    simp [Turtle.teleport, h]
  exact ⟨hcvs, fun px py => by rw [hcvs], rfl, rfl, rfl, rfl⟩

/-- Witness for `teleport_spec`: a pen-up turtle at (1.5, 2.5) teleporting to
(9.5, 3.5) moves exactly there and leaves its canvas untouched. -/
theorem teleport_spec_witness :
    (Turtle.mk 1.5 2.5 false false PixelColor.white 0.0 (Canvas.new 4 4)).brush = false
    ∧ ((Turtle.mk 1.5 2.5 false false PixelColor.white 0.0 (Canvas.new 4 4)).teleport
        9.5 3.5).x = 9.5
    ∧ ((Turtle.mk 1.5 2.5 false false PixelColor.white 0.0 (Canvas.new 4 4)).teleport
        9.5 3.5).y = 3.5
    ∧ ((Turtle.mk 1.5 2.5 false false PixelColor.white 0.0 (Canvas.new 4 4)).teleport
        9.5 3.5).cvs = Canvas.new 4 4 :=
  ⟨rfl,
    (teleport_spec (Turtle.mk 1.5 2.5 false false PixelColor.white 0.0 (Canvas.new 4 4))
      9.5 3.5).1.1,
    (teleport_spec (Turtle.mk 1.5 2.5 false false PixelColor.white 0.0 (Canvas.new 4 4))
      9.5 3.5).1.2,
    ((teleport_spec (Turtle.mk 1.5 2.5 false false PixelColor.white 0.0 (Canvas.new 4 4))
      9.5 3.5).2 rfl).1⟩


/-! ### Ellipse mirror symmetry -/

end Drawille
